import Mathlib

/-!
Shallow embedding of `nodes.py` (ComfyUI node layer) and verification of the
spec claims about it.  Python lists become Lean lists, dicts become
association lists, tensors are modelled by their shape together with flat
integer/rational payloads where the claim needs the data.  Machine floats
appear only in aspect-ratio arithmetic and are modelled by exact rationals
(the concrete inputs of the claims are exactly representable).
-/

namespace ComfyNodes

/-! ## Conditioning data model

A conditioning entry in the source is a two-element Python list
`[tensor, dict]`; the dict maps string keys to heterogeneous values.  The
embedding tensor only matters through its batch dimension (dim 0), so it is
modelled as a list of opaque per-batch rows (`Int` identifiers). -/

/-- A metadata value: either the `area` 4-tuple or a numeric value. -/
inductive MVal where
  | area : Nat × Nat × Nat × Nat → MVal
  | num : ℚ → MVal
deriving DecidableEq, Repr

/-- A Python dict of metadata, as an association list (first match wins). -/
abbrev Meta := List (String × MVal)

/-- Dict read: `m[k]` if present. -/
def getKey (m : Meta) (k : String) : Option MVal :=
  (m.find? (fun p => p.1 = k)).map (fun p => p.2)

/-- Dict write `m[k] = v`: overwrite an existing binding, else append. -/
def setKey (m : Meta) (k : String) (v : MVal) : Meta :=
  if m.any (fun p => p.1 = k) then
    m.map (fun p => if p.1 = k then (k, v) else p)
  else
    m ++ [(k, v)]

/-- One conditioning entry `[tensor, dict]`: the embedding tensor as its list
of batch rows, plus the metadata dict. -/
structure Entry where
  emb : List Int
  meta : Meta
deriving DecidableEq, Repr

/-! ## ConditioningCombine (nodes.py lines 50-51) -/

/-- `ConditioningCombine.combine`: Python list `+` on conditioning lists. -/
def combine (conditioning_1 conditioning_2 : List Entry) : List Entry :=
  conditioning_1 ++ conditioning_2

/-! ## ConditioningSetArea (nodes.py lines 68-75)

`append` deep-copies the conditioning list and mutates the copies in place.
To express the frame effect (the originals are untouched) the Python heap is
made explicit: a store of entries, and a conditioning list as a list of
addresses into the store.  `copy.deepcopy` allocates fresh cells at the end
of the store; the `for t in c:` loop then mutates only those fresh cells. -/

abbrev Store := List Entry

/-- In-place mutation of the store cell at address `a` (no-op out of range,
mirroring that the loop only ever touches live addresses). -/
def mutateAt (s : Store) (a : Nat) (f : Entry → Entry) : Store :=
  s.set a (f (s.getD a ⟨[], []⟩))

/-- The `for t in c:` loop: mutate each address in turn. -/
def mutateAll (f : Entry → Entry) : Store → List Nat → Store
  | s, [] => s
  | s, a :: rest => mutateAll f (mutateAt s a f) rest

/-- The body of the loop: `t[1]['area'] = (height // 8, width // 8, y // 8, x // 8);
t[1]['strength'] = strength; t[1]['min_sigma'] = min_sigma;
t[1]['max_sigma'] = max_sigma`. -/
def setAreaEntry (width height x y : Nat) (strength min_sigma max_sigma : ℚ)
    (e : Entry) : Entry :=
  { e with meta :=
      (setKey (setKey (setKey (setKey e.meta
        "area" (MVal.area (height / 8, width / 8, y / 8, x / 8)))
        "strength" (MVal.num strength))
        "min_sigma" (MVal.num min_sigma))
        "max_sigma" (MVal.num max_sigma)) }

/-- `copy.deepcopy(conditioning)`: allocate value-copies of the referenced
entries as fresh cells at the end of the store, and return the new store
together with the fresh addresses. -/
def deepcopy (s : Store) (cond : List Nat) : Store × List Nat :=
  (s ++ cond.map (fun a => s.getD a ⟨[], []⟩),
   (List.range cond.length).map (fun i => s.length + i))

/-- `ConditioningSetArea.append`: deep copy, then mutate every copy's
metadata in place; returns the new store and the addresses of the copies. -/
def conditioningSetArea (s : Store) (cond : List Nat)
    (width height x y : Nat) (strength min_sigma max_sigma : ℚ) :
    Store × List Nat :=
  let sc := deepcopy s cond
  (mutateAll (setAreaEntry width height x y strength min_sigma max_sigma)
    sc.1 sc.2, sc.2)

/-! ## VAEEncode (nodes.py lines 104-109)

A pixel tensor `[batch, H, W, channels]` enters only through its two spatial
dimensions and its payload; it is modelled as the list of its `H` rows, each
a list of `W` pixel values (one fixed batch/channel slice carries the claim).
`shape[1]` and `shape[2]` are the row count and the first row's length. -/

def shapeH (pixels : List (List ℚ)) : Nat := pixels.length

def shapeW (pixels : List (List ℚ)) : Nat := (pixels.headD []).length

/-- The truncation step of `VAEEncode.encode`: round each spatial dim down to
a multiple of 64 and slice (`pixels[:, :x, :y, :]`) only when needed; the
result is what is handed to the external `vae.encode`. -/
def vaeEncodeInput (pixels : List (List ℚ)) : List (List ℚ) :=
  let x := (shapeH pixels / 64) * 64
  let y := (shapeW pixels / 64) * 64
  if shapeH pixels ≠ x ∨ shapeW pixels ≠ y then
    (pixels.take x).map (fun r => r.take y)
  else
    pixels

/-! ## LatentUpscale (nodes.py lines 180-196)

Aspect arithmetic is done in Python floats; here exact rationals stand in
(the claims evaluate it on small integer dims where the float results are
exact).  `round` is Python 3 `round`: nearest integer, ties to even. -/

/-- Python 3 `round` on an exact rational: nearest, ties to even. -/
def pyRound (q : ℚ) : ℤ :=
  if q - ⌊q⌋ < 1/2 then ⌊q⌋
  else if 1/2 < q - ⌊q⌋ then ⌊q⌋ + 1
  else if ⌊q⌋ % 2 = 0 then ⌊q⌋ else ⌊q⌋ + 1

/-- The center-crop offsets of `LatentUpscale.upscale`: given the source
latent spatial dims (`old_width = samples.shape[3]`, `old_height =
samples.shape[2]`) and the target pixel dims, return `(x, y)` such that the
slice kept is `samples[:, :, y : old_height - y, x : old_width - x]`.
`crop = "disabled"` performs no slice, i.e. offsets `(0, 0)` with the full
dims kept. -/
def upscaleCropOffsets (old_width old_height width height : Nat)
    (crop : String) : Nat × Nat :=
  if crop = "center" then
    let old_aspect : ℚ := (old_width : ℚ) / (old_height : ℚ)
    let new_aspect : ℚ := (width : ℚ) / (height : ℚ)
    if new_aspect < old_aspect then
      ((pyRound (((old_width : ℚ) - (old_width : ℚ) * (new_aspect / old_aspect)) / 2)).toNat, 0)
    else if old_aspect < new_aspect then
      (0, (pyRound (((old_height : ℚ) - (old_height : ℚ) * (old_aspect / new_aspect)) / 2)).toNat)
    else
      (0, 0)
  else
    (0, 0)

/-- The spatial dims of the latent handed to `interpolate`: the slice
`[y : old_height - y, x : old_width - x]` keeps `old_width - 2x` columns and
`old_height - 2y` rows. -/
def upscaleCroppedDims (old_width old_height width height : Nat)
    (crop : String) : Nat × Nat :=
  let o := upscaleCropOffsets old_width old_height width height crop
  (old_width - o.1 - o.1, old_height - o.2 - o.2)

/-! ## KSampler (nodes.py lines 198-253)

Tensors enter through their shape, payload and device; `.to(device)` changes
only the placement tag.  Everything outside `src/` (the torch RNG, the
`comfy.samplers` package, the model) enters as an explicit parameter or a
spec-modelled definition. -/

/-- A compute placement. -/
inductive Device where
  | cpu : Device
  | cuda : Device
deriving DecidableEq, Repr

/-- A latent tensor: shape `[batch, channels, h, w]`, flat integer payload
standing in for the float data, and current placement. -/
structure LatentT where
  shape : List Nat
  data : List Int
  device : Device
deriving DecidableEq, Repr

/-- `tensor.to(device)`: a whole-tensor move; the payload is unchanged. -/
def LatentT.to (t : LatentT) (d : Device) : LatentT :=
  { t with device := d }

/-- One step of a 64-bit linear congruential generator. -/
def lcg (s : Nat) : Nat :=
  (6364136223846793005 * s + 1442695040888963407) % (2 ^ 64)

/-- The LCG stream seeded at `s`: element `n` of the draw. -/
def lcgIter (s : Nat) : Nat → Nat
  | 0 => lcg s
  | n + 1 => lcg (lcgIter s n)

/-- Modelled from the spec: `torch.randn(shape, generator=torch.manual_seed(seed), device="cpu")`
— the torch library is outside `src/`.  Per the spec the draw is a
deterministic function of the seed and the shape on a fixed source; an LCG
stream stands in for the Gaussian variates, and only that determinism is
relied on. -/
def torchRandn (seed : Nat) (shape : List Nat) : List Int :=
  (List.range shape.prod).map (fun i => (lcgIter seed i : Int))

/-- Modelled from the spec: the known sampler-algorithm set
`comfy.samplers.KSampler.SAMPLERS` — the `comfy` package is outside `src/`.
The spec names Euler, DPM and ancestral variants. -/
def SAMPLERS : List String := ["euler", "euler_ancestral", "dpm"]

/-- Line 223, the noise draw of `KSampler.sample`.  `self.device` is passed
in to record that the draw does not consult it: the `device` argument of
`torch.randn` in the source is the literal string `"cpu"`. -/
def sampleNoise (dev : Device) (seed : Nat) (latent_image : LatentT) : LatentT :=
  { shape := latent_image.shape
    data := torchRandn seed latent_image.shape
    device := Device.cpu }

/-- Lines 233-234 / 239-240: `torch.cat([t] * noise.shape[0])`, applied only
when the embedding batch dim is strictly smaller than the noise batch dim
`n`; `torch.cat` on `[t] * n` concatenates `n` copies of `t` along dim 0. -/
def broadcastEmb (t : List Int) (n : Nat) : List Int :=
  if t.length < n then (List.replicate n t).flatten else t

/-- Lines 231-242: build `positive_copy` (resp. `negative_copy`): each entry
`[t] + p[1:]` keeps its metadata and gets its embedding broadcast against the
noise batch dim.  (`t.to(self.device)` moves carry no data change and are
not tracked on embeddings.) -/
def broadcastCond (cond : List Entry) (n : Nat) : List Entry :=
  cond.map (fun p => { p with emb := broadcastEmb p.emb n })

/-- The Python exceptions reachable in the embedded fragment. -/
inductive PyErr where
  | unboundLocal : String → PyErr
  | configurationError : PyErr
deriving DecidableEq, Repr

/-- The observable outcome of one `KSampler.sample` call.  The noise draw and
the conditioning broadcasts (lines 223-242) run unconditionally before the
line-244 test of `sampler_name`, so they are fields of every outcome,
including the failing one. -/
structure SampleOutcome where
  noise : LatentT
  positive_copy : List Entry
  negative_copy : List Entry
  result : Except PyErr LatentT

/-- `KSampler.sample` (lines 222-253).  `alg` stands for the external
`comfy.samplers.KSampler(model, steps, device, sampler, scheduler, denoise).sample(noise, positive, negative, cfg, latent)`
composite — a pure function, per the spec's determinism requirement, taking
every argument the source forwards to it.  For a `sampler_name` outside
`SAMPLERS` the `else: pass` branch (lines 246-248) leaves the local variable
`sampler` unbound, and line 250 then raises `UnboundLocalError`; no
computation is skipped before that point. -/
def KSampler.sample
    (alg : Device → Nat → String → String → ℚ → LatentT → List Entry → List Entry → ℚ → LatentT → LatentT)
    (dev : Device) (seed : Nat) (steps : Nat) (cfg : ℚ)
    (sampler_name scheduler : String)
    (positive negative : List Entry) (latent_image : LatentT)
    (denoise : ℚ) : SampleOutcome :=
  let noise := (sampleNoise dev seed latent_image).to dev
  let latent_image := latent_image.to dev
  let positive_copy := broadcastCond positive (noise.shape.headD 0)
  let negative_copy := broadcastCond negative (noise.shape.headD 0)
  if sampler_name ∈ SAMPLERS then
    { noise := noise
      positive_copy := positive_copy
      negative_copy := negative_copy
      result := Except.ok
        ((alg dev steps sampler_name scheduler denoise noise positive_copy
          negative_copy cfg latent_image).to Device.cpu) }
  else
    { noise := noise
      positive_copy := positive_copy
      negative_copy := negative_copy
      result := Except.error (PyErr.unboundLocal "sampler") }

/-! ## SaveImage (nodes.py lines 275-298) -/

/-- The first component of Python `s.split('_')`: the characters before the
first underscore (the whole string when there is none). -/
def splitUnd (cs : List Char) : List Char :=
  cs.takeWhile (fun c => c ≠ '_')

/-- The numeric value of a run of decimal digit characters. -/
def digitsVal (cs : List Char) : Nat :=
  cs.foldl (fun n c => n * 10 + (c.toNat - 48)) 0

/-- Python `int(s)` on a string (as its character list): optional surrounding
whitespace, optional sign, at least one ASCII digit; `none` models the raised
`ValueError`. -/
def pyInt (cs : List Char) : Option Int :=
  let t := ((cs.dropWhile Char.isWhitespace).reverse.dropWhile Char.isWhitespace).reverse
  let neg := t.headD ' ' == '-'
  let core := if neg || (t.headD ' ' == '+') then t.drop 1 else t
  if core ≠ [] ∧ core.all Char.isDigit then
    some (if neg then -(digitsVal core : Int) else (digitsVal core : Int))
  else
    none

/-- `map_filename` (lines 276-283): pair a directory entry's numeric counter
(the run of characters after the prefix up to the next underscore, through
`int`, an unparseable one counting as 0 via the bare `except:`) with its
first `len(filename_prefix) + 1` characters. -/
def mapFilename (pfx : String) (filename : String) : Int × String :=
  let digits :=
    match pyInt (splitUnd (filename.data.drop (pfx.length + 1))) with
    | some d => d
    | none => 0
  (digits, String.mk (filename.data.take (pfx.length + 1)))

/-- The filter of line 285 on a mapped pair: the string part minus its last
character equals the prefix, and that last character is an underscore.
(Directory entries are nonempty strings, so Python's `a[1][-1]` is total
here.) -/
def counterMatch (pfx : String) (a : Int × String) : Bool :=
  (a.2.data.dropLast == pfx.data) && (a.2.data.getLastD ' ' == '_')

/-- Lines 284-287: the resume counter.  Python takes `max` over the filtered
`(digits, prefix)` pairs; every pair passing the filter has the same string
component, so the maximum is governed by the numeric part alone; `max` over
an empty sequence raises `ValueError`, caught to yield 1. -/
def nextCounter (listing : List String) (pfx : String) : Int :=
  match (listing.map (mapFilename pfx)).filter (counterMatch pfx) with
  | [] => 1
  | a :: rest => (rest.foldl (fun m b => max m b.1) a.1) + 1

/-- `f"{counter:05}"`: decimal, left zero-padded to total width 5, sign
included in the width. -/
def zeroPad5 (n : Int) : String :=
  let s := Nat.toDigits 10 n.natAbs
  let w := 5 - s.length - (if n < 0 then 1 else 0)
  String.mk ((if n < 0 then ['-'] else []) ++ List.replicate w '0' ++ s)

/-- Line 297: the path written for the first image of the batch,
`f"output/{filename_prefix}_{counter:05}_.png"`. -/
def nextSavePath (listing : List String) (pfx : String) : String :=
  "output/" ++ pfx ++ "_" ++ zeroPad5 (nextCounter listing pfx) ++ "_.png"

/-! ## Helper lemmas -/

theorem flatten_replicate_length {α : Type} (n : Nat) (t : List α) :
    ((List.replicate n t).flatten).length = n * t.length := by
  induction n with
  | zero => simp
  | succ k ih => simp [List.replicate_succ, ih, Nat.succ_mul, Nat.add_comm]

theorem flatten_replicate_singleton {α : Type} (n : Nat) (x : α) :
    (List.replicate n [x]).flatten = List.replicate n x := by
  induction n with
  | zero => rfl
  | succ k ih => simp [List.replicate_succ, ih]

theorem pyRound_of_lt_half (q : ℚ) (z : ℤ) (hf : ⌊q⌋ = z) (hr : q - z < 1/2) :
    pyRound q = z := by
  unfold pyRound
  rw [hf, if_pos hr]

theorem crop_center_eval :
    upscaleCropOffsets 512 512 768 512 "center" = (0, 85) := by
  have hf : ⌊(256/3 : ℚ)⌋ = 85 := by
    rw [Int.floor_eq_iff]
    norm_num
  have hp : pyRound (256/3 : ℚ) = 85 :=
    pyRound_of_lt_half _ 85 hf (by norm_num [hf])
  norm_num [upscaleCropOffsets, hp]
  rfl

theorem crop_disabled_eval (ow oh w h : Nat) :
    upscaleCropOffsets ow oh w h "disabled" = (0, 0) := by
  simp [upscaleCropOffsets]

/-! ## Claims -/

/-- Claim C7: `combine` is the order-preserving concatenation of its two
conditioning lists with no deduplication, its length is the sum of the input
lengths, and it is associative. -/
theorem claim_C7 (A B C : List Entry) :
    combine A B = A ++ B ∧
    (combine A B).length = A.length + B.length ∧
    combine (combine A B) C = combine A (combine B C) := by
  refine ⟨rfl, ?_, ?_⟩
  · simp [combine]
  · simp [combine, List.append_assoc]

/-- Claim C2 (counterexample): in `KSampler.sample`, a conditioning entry of
embedding batch size 3 against a noise/latent batch size of 6 is NOT
broadcast to batch size 6: `torch.cat([t] * 6)` tiles it to batch size 18. -/
theorem claim_C2_counterexample :
    ((KSampler.sample (fun _ _ _ _ _ _ _ _ _ l => l) Device.cpu 0 20 8 "euler"
        "normal" [⟨[10, 20, 30], []⟩] [] ⟨[6], [], Device.cpu⟩ 1).positive_copy.map
      (fun e => e.emb.length) ≠ [6]) ∧
    (KSampler.sample (fun _ _ _ _ _ _ _ _ _ l => l) Device.cpu 0 20 8 "euler"
        "normal" [⟨[10, 20, 30], []⟩] [] ⟨[6], [], Device.cpu⟩ 1).positive_copy.map
      (fun e => e.emb.length) = [18] := by
  constructor
  · decide
  · decide

/-- Claim C2 (amended): an embedding whose batch size is smaller than the
noise batch size `n` is tiled `n` times, yielding batch size `n * t.length`
(so batch size 1 yields exactly `n` identical copies, while batch size 3
against target 6 yields 18, not 6); no error is raised. -/
theorem claim_C2 (t : List Int) (n : Nat) (x : Int) (h : t.length < n) :
    broadcastEmb t n = (List.replicate n t).flatten ∧
    (broadcastEmb t n).length = n * t.length ∧
    broadcastEmb [x] n = List.replicate n x := by
  have hn : 0 < n := Nat.lt_of_le_of_lt (Nat.zero_le _) h
  refine ⟨?_, ?_, ?_⟩
  · simp [broadcastEmb, h]
  · simp [broadcastEmb, h, flatten_replicate_length]
  · rcases Nat.lt_or_ge 1 n with h1 | h1
    · have hx : ([x] : List Int).length < n := by simpa using h1
      unfold broadcastEmb
      rw [if_pos hx]
      exact flatten_replicate_singleton n x
    · have hn1 : n = 1 := Nat.le_antisymm h1 hn
      subst hn1
      simp [broadcastEmb]

/-- Claim C2 (witness for the amended theorem). -/
theorem claim_C2_witness :
    broadcastEmb [1, 2] 5 = (List.replicate 5 [1, 2]).flatten ∧
    (broadcastEmb [1, 2] 5).length = 5 * 2 ∧
    broadcastEmb [7] 5 = List.replicate 5 7 := by
  have h := claim_C2 [1, 2] 5 7 (by decide)
  simpa using h

/-- Claim C10: a conditioning entry whose embedding batch size is at least
the noise batch size is passed through the broadcast step of
`KSampler.sample` unchanged — no tiling, no truncation, no error — whatever
the divisibility relation between the two sizes. -/
theorem claim_C10 (cond : List Entry) (n : Nat)
    (h : ∀ e ∈ cond, n ≤ e.emb.length) :
    broadcastCond cond n = cond := by
  unfold broadcastCond
  have : ∀ e ∈ cond, (fun p => { p with emb := broadcastEmb p.emb n }) e = e := by
    intro e he
    have hne : ¬ e.emb.length < n := Nat.not_lt.mpr (h e he)
    simp [broadcastEmb, hne]
  rw [List.map_congr_left this]
  simp

/-- Claim C10 (witness): batch size 3 against noise batch 2 — larger and not
a divisor — passes through unchanged. -/
theorem claim_C10_witness :
    broadcastCond [⟨[1, 2, 3], []⟩] 2 = [⟨[1, 2, 3], []⟩] :=
  claim_C10 [⟨[1, 2, 3], []⟩] 2 (by decide)

/-- Claim C4 (counterexample): upscaling a square 512×512 latent to a
768×512 target with center crop leaves the width dimension entirely
uncropped (offset x = 0) and instead crops the height dimension (offset
y = 85 rows at each end), contradicting "crops only the width dimension". -/
theorem claim_C4_counterexample :
    (upscaleCropOffsets 512 512 768 512 "center").1 = 0 ∧
    (upscaleCropOffsets 512 512 768 512 "center").2 = 85 ∧
    upscaleCroppedDims 512 512 768 512 "center" = (512, 342) := by
  refine ⟨?_, ?_, ?_⟩
  · rw [crop_center_eval]
  · rw [crop_center_eval]
  · unfold upscaleCroppedDims
    rw [crop_center_eval]
    rfl

/-- Claim C4 (amended): upscaling a square (aspect-ratio 1.0) 512×512 latent
to a 768×512 target with `crop = "center"` crops only the HEIGHT dimension,
symmetrically on both sides (the slice keeps rows `85 : 512 - 85`, all
columns); `crop = "disabled"` performs no crop for any dimensions. -/
theorem claim_C4 :
    upscaleCropOffsets 512 512 768 512 "center" = (0, 85) ∧
    upscaleCroppedDims 512 512 768 512 "center" = (512, 512 - 85 - 85) ∧
    (∀ ow oh w h : Nat,
      upscaleCropOffsets ow oh w h "disabled" = (0, 0) ∧
      upscaleCroppedDims ow oh w h "disabled" = (ow, oh)) := by
  refine ⟨crop_center_eval, ?_, ?_⟩
  · unfold upscaleCroppedDims
    rw [crop_center_eval]
    rfl
  · intro ow oh w h
    refine ⟨crop_disabled_eval ow oh w h, ?_⟩
    unfold upscaleCroppedDims
    rw [crop_disabled_eval]
    simp

/-- Claim C3: the Gaussian noise of a sampling request is drawn from the seed
on the single fixed CPU source, independently of the execution device, so two
invocations of `sample` on the same request draw bit-identical noise, and
with a fixed deterministic sampler algorithm the two results are identical. -/
theorem claim_C3
    (alg : Device → Nat → String → String → ℚ → LatentT → List Entry → List Entry → ℚ → LatentT → LatentT)
    (dev1 dev2 : Device) (seed steps : Nat) (cfg : ℚ) (sname sched : String)
    (pos neg : List Entry) (latent : LatentT) (denoise : ℚ) :
    (sampleNoise dev1 seed latent).data = (sampleNoise dev2 seed latent).data ∧
    (sampleNoise dev1 seed latent).device = Device.cpu ∧
    (sampleNoise dev1 seed latent).data = torchRandn seed latent.shape ∧
    (KSampler.sample alg dev1 seed steps cfg sname sched pos neg latent denoise).noise.data =
      (KSampler.sample alg dev2 seed steps cfg sname sched pos neg latent denoise).noise.data ∧
    (KSampler.sample alg dev1 seed steps cfg sname sched pos neg latent denoise).result =
      (KSampler.sample alg dev1 seed steps cfg sname sched pos neg latent denoise).result := by
  refine ⟨rfl, rfl, rfl, ?_, rfl⟩
  by_cases h : sname ∈ SAMPLERS
  · simp [KSampler.sample, h, sampleNoise, LatentT.to]
  · simp [KSampler.sample, h, sampleNoise, LatentT.to]

/-- Claim C1: evaluation of `KSampler.sample` at a request whose sampler name
is unknown.  The call does NOT raise `ConfigurationError` before any
computation: the noise is drawn and the conditioning is broadcast (lines
223-242 run unconditionally), and the call then fails at line 250 with an
`UnboundLocalError` on the never-assigned local `sampler`. -/
theorem claim_C1 :
    (let o := KSampler.sample (fun _ _ _ _ _ _ _ _ _ l => l) Device.cuda 42 20 8
        "not_a_sampler" "normal" [⟨[7], []⟩] [] ⟨[2, 1, 1, 1], [3, 4], Device.cpu⟩ 1
     o.result = Except.error (PyErr.unboundLocal "sampler") ∧
     (Except.error (PyErr.unboundLocal "sampler") : Except PyErr LatentT) ≠
       Except.error PyErr.configurationError ∧
     o.noise.data = torchRandn 42 [2, 1, 1, 1] ∧
     o.noise.data.length = 2 ∧
     o.positive_copy = [⟨[7, 7], []⟩]) := by
  refine ⟨rfl, by simp, rfl, by decide, by decide⟩

/-- Claim C6: before encoding, `VAEEncode` truncates (never pads) each
spatial dimension of the pixel tensor down to the largest multiple of 64,
and passes tensors whose spatial dimensions are already multiples of 64
through unchanged. -/
theorem claim_C6 (pixels : List (List ℚ))
    (hu : ∀ r ∈ pixels, r.length = shapeW pixels) :
    shapeH (vaeEncodeInput pixels) = (shapeH pixels / 64) * 64 ∧
    (∀ r ∈ vaeEncodeInput pixels, r.length = (shapeW pixels / 64) * 64) ∧
    ((shapeH pixels / 64) * 64 ≤ shapeH pixels ∧
      ∀ m : Nat, 64 ∣ m → m ≤ shapeH pixels → m ≤ (shapeH pixels / 64) * 64) ∧
    (64 ∣ shapeH pixels → 64 ∣ shapeW pixels → vaeEncodeInput pixels = pixels) := by
  have harith : (shapeH pixels / 64) * 64 ≤ shapeH pixels ∧
      ∀ m : Nat, 64 ∣ m → m ≤ shapeH pixels → m ≤ (shapeH pixels / 64) * 64 := by
    refine ⟨Nat.div_mul_le_self _ _, ?_⟩
    rintro m ⟨c, rfl⟩ hm
    have hc : c ≤ shapeH pixels / 64 :=
      (Nat.le_div_iff_mul_le (by norm_num)).mpr (by omega)
    calc 64 * c = c * 64 := Nat.mul_comm _ _
      _ ≤ (shapeH pixels / 64) * 64 := Nat.mul_le_mul_right _ hc
  by_cases hcond : shapeH pixels ≠ (shapeH pixels / 64) * 64 ∨
      shapeW pixels ≠ (shapeW pixels / 64) * 64
  · have hval : vaeEncodeInput pixels =
        (pixels.take ((shapeH pixels / 64) * 64)).map
          (fun r => r.take ((shapeW pixels / 64) * 64)) := by
      unfold vaeEncodeInput
      rw [if_pos hcond]
    refine ⟨?_, ?_, harith, ?_⟩
    · rw [hval]
      simp only [shapeH, List.length_map, List.length_take]
      exact Nat.min_eq_left (Nat.div_mul_le_self _ _)
    · intro r hr
      rw [hval] at hr
      rcases List.mem_map.mp hr with ⟨r0, hr0, rfl⟩
      have hr0p : r0 ∈ pixels := List.take_subset _ _ hr0
      rw [List.length_take, hu r0 hr0p]
      exact Nat.min_eq_left (Nat.div_mul_le_self _ _)
    · intro h1 h2
      exfalso
      rcases hcond with hc | hc
      · exact hc (Nat.div_mul_cancel h1).symm
      · exact hc (Nat.div_mul_cancel h2).symm
  · push_neg at hcond
    have hval : vaeEncodeInput pixels = pixels := by
      unfold vaeEncodeInput
      rw [if_neg]
      push_neg
      exact hcond
    refine ⟨?_, ?_, harith, fun _ _ => hval⟩
    · rw [hval, ← hcond.1]
    · intro r hr
      rw [hval] at hr
      rw [hu r hr, ← hcond.2]

theorem shapeH_replicate (n m : Nat) (q : ℚ) :
    shapeH (List.replicate n (List.replicate m q)) = n := by
  unfold shapeH
  exact List.length_replicate n _

theorem shapeW_replicate (n m : Nat) (q : ℚ) (hn : n ≠ 0) :
    shapeW (List.replicate n (List.replicate m q)) = m := by
  unfold shapeW
  cases n with
  | zero => exact absurd rfl hn
  | succ k =>
    rw [List.replicate_succ]
    simp only [List.headD_cons, List.length_replicate]

/-- Claim C6 (witness): a 513×513 pixel input is truncated to 512×512 before
encoding, not padded. -/
theorem claim_C6_witness :
    shapeH (vaeEncodeInput (List.replicate 513 (List.replicate 513 (0:ℚ)))) = 512 ∧
    (∀ r ∈ vaeEncodeInput (List.replicate 513 (List.replicate 513 (0:ℚ))),
      r.length = 512) := by
  have hu : ∀ r ∈ List.replicate 513 (List.replicate 513 (0:ℚ)),
      r.length = shapeW (List.replicate 513 (List.replicate 513 (0:ℚ))) := by
    intro r hr
    rw [List.eq_of_mem_replicate hr, shapeW_replicate 513 513 0 (by norm_num)]
    exact List.length_replicate 513 _
  have h := claim_C6 (List.replicate 513 (List.replicate 513 (0:ℚ))) hu
  constructor
  · rw [h.1, shapeH_replicate]
  · intro r hr
    rw [h.2.1 r hr, shapeW_replicate 513 513 0 (by norm_num)]

theorem le_foldl_max (l : List Int) (a : Int) : a ≤ l.foldl max a := by
  induction l generalizing a with
  | nil => exact le_refl a
  | cons b t ih => exact le_trans (le_max_left a b) (ih (max a b))

theorem mem_le_foldl_max (l : List Int) (x : Int) (hx : x ∈ l) :
    ∀ a, x ≤ l.foldl max a := by
  induction hx with
  | head t =>
    intro a
    exact le_trans (le_max_right a x) (le_foldl_max t _)
  | tail b hmem ih =>
    intro a
    exact ih (max a b)

theorem foldl_max_le (l : List Int) (m : Int) :
    ∀ a, a ≤ m → (∀ x ∈ l, x ≤ m) → l.foldl max a ≤ m := by
  induction l with
  | nil => exact fun a ha _ => ha
  | cons b t ih =>
    intro a ha h
    exact ih (max a b) (max_le ha (h b (List.mem_cons_self b t)))
      (fun x hx => h x (List.mem_cons_of_mem b hx))

/-- The resume counter is the maximum matching counter plus one, whenever a
matching entry attains the maximum. -/
theorem nextCounter_eq (listing : List String) (pfx : String) (m : Int)
    (hmem : ∃ fn ∈ listing, counterMatch pfx (mapFilename pfx fn) = true ∧
      (mapFilename pfx fn).1 = m)
    (hle : ∀ fn ∈ listing, counterMatch pfx (mapFilename pfx fn) = true →
      (mapFilename pfx fn).1 ≤ m) :
    nextCounter listing pfx = m + 1 := by
  rcases hmem with ⟨fn, hfn, hmatch, hval⟩
  have hp : mapFilename pfx fn ∈
      (listing.map (mapFilename pfx)).filter (counterMatch pfx) :=
    List.mem_filter.mpr ⟨List.mem_map_of_mem _ hfn, hmatch⟩
  have helem : ∀ p ∈ (listing.map (mapFilename pfx)).filter (counterMatch pfx),
      p.1 ≤ m := by
    intro p hpf
    rcases List.mem_filter.mp hpf with ⟨hpm, hmatchp⟩
    rcases List.mem_map.mp hpm with ⟨fn2, hfn2, rfl⟩
    exact hle fn2 hfn2 hmatchp
  cases hl : (listing.map (mapFilename pfx)).filter (counterMatch pfx) with
  | nil =>
    rw [hl] at hp
    cases hp
  | cons a rest =>
    have hgoal : nextCounter listing pfx =
        (rest.foldl (fun acc b => max acc b.1) a.1) + 1 := by
      unfold nextCounter
      rw [hl]
    rw [hl] at hp helem
    have hfold : rest.foldl (fun acc b => max acc b.1) a.1 =
        (rest.map Prod.fst).foldl max a.1 := (List.foldl_map _ _ _ _).symm
    have hle2 : (rest.map Prod.fst).foldl max a.1 ≤ m := by
      refine foldl_max_le _ m a.1 (helem a (List.mem_cons_self a rest)) ?_
      intro x hx
      rcases List.mem_map.mp hx with ⟨p, hpr, rfl⟩
      exact helem p (List.mem_cons_of_mem a hpr)
    have hge2 : m ≤ (rest.map Prod.fst).foldl max a.1 := by
      rcases List.mem_cons.mp hp with heq | hmemr
      · rw [← hval, heq]
        exact le_foldl_max _ _
      · rw [← hval]
        exact mem_le_foldl_max _ _ (List.mem_map_of_mem Prod.fst hmemr) a.1
    rw [hgoal, hfold, le_antisymm hle2 hge2]

/-- Claim C8: `save` resumes at the highest existing counter for the given
prefix plus one (an unparseable counter counting as 0): with
`ComfyUI_00007_.png` present and no higher-numbered matching file, the next
file written is `output/ComfyUI_00008_.png`. -/
theorem claim_C8 (listing : List String)
    (hmem : "ComfyUI_00007_.png" ∈ listing)
    (hle : ∀ fn ∈ listing, counterMatch "ComfyUI" (mapFilename "ComfyUI" fn) = true →
      (mapFilename "ComfyUI" fn).1 ≤ 7) :
    nextCounter listing "ComfyUI" = 8 ∧
    nextSavePath listing "ComfyUI" = "output/ComfyUI_00008_.png" ∧
    (∀ pfx fn : String, pyInt (splitUnd (fn.data.drop (pfx.length + 1))) = none →
      (mapFilename pfx fn).1 = 0) := by
  have h7 : nextCounter listing "ComfyUI" = 8 := by
    have h := nextCounter_eq listing "ComfyUI" 7
      ⟨"ComfyUI_00007_.png", hmem, by decide, by decide⟩ hle
    rw [h]
    decide
  refine ⟨h7, ?_, ?_⟩
  · unfold nextSavePath
    rw [h7]
    decide
  · intro pfx fn h
    simp [mapFilename, h]

/-- Claim C8 (witness). -/
theorem claim_C8_witness :
    nextCounter ["ComfyUI_00007_.png", "notes.txt"] "ComfyUI" = 8 ∧
    nextSavePath ["ComfyUI_00007_.png", "notes.txt"] "ComfyUI" =
      "output/ComfyUI_00008_.png" := by
  have h := claim_C8 ["ComfyUI_00007_.png", "notes.txt"] (by decide) (by decide)
  exact ⟨h.1, h.2.1⟩

/-- Claim C9: when no file in the output directory matches the given prefix
(in particular for an empty directory), the counter starts at 1 and the
first file written is `output/<prefix>_00001_.png`. -/
theorem claim_C9 (listing : List String) (pfx : String)
    (hnone : ∀ fn ∈ listing, counterMatch pfx (mapFilename pfx fn) = false) :
    nextCounter listing pfx = 1 ∧
    nextSavePath listing pfx = "output/" ++ pfx ++ "_00001_.png" := by
  have hfilter : (listing.map (mapFilename pfx)).filter (counterMatch pfx) = [] := by
    refine List.filter_eq_nil_iff.mpr ?_
    intro p hp
    rcases List.mem_map.mp hp with ⟨fn, hfn, rfl⟩
    simp [hnone fn hfn]
  have h1 : nextCounter listing pfx = 1 := by
    unfold nextCounter
    rw [hfilter]
  refine ⟨h1, ?_⟩
  unfold nextSavePath
  rw [h1]
  have hz : zeroPad5 1 = "00001" := by decide
  rw [hz, String.append_assoc ("output/" ++ pfx) "_" "00001",
    String.append_assoc ("output/" ++ pfx) ("_" ++ "00001") "_.png",
    String.append_assoc "output/" pfx "_00001_.png"]
  rw [String.append_assoc "output/" pfx (("_" ++ "00001") ++ "_.png")]
  have hs : ("_" ++ "00001" ++ "_.png" : String) = "_00001_.png" := by decide
  rw [hs]

/-- Claim C9 (witness): an empty output directory yields
`output/ComfyUI_00001_.png`. -/
theorem claim_C9_witness :
    nextCounter [] "ComfyUI" = 1 ∧
    nextSavePath [] "ComfyUI" = "output/" ++ "ComfyUI" ++ "_00001_.png" :=
  claim_C9 [] "ComfyUI" (by decide)

theorem setKey_cons_ne (p : String × MVal) (m : Meta) (k : String) (v : MVal)
    (h : p.1 ≠ k) : setKey (p :: m) k v = p :: setKey m k v := by
  by_cases hm : m.any (fun q => q.1 = k)
  · simp [setKey, h, hm]
  · simp [setKey, h, hm]

theorem find?_mapOverwrite (m : Meta) (k k2 : String) (v : MVal) (h : k2 ≠ k) :
    (m.map (fun p => if p.1 = k then (k, v) else p)).find? (fun p => p.1 = k2) =
      m.find? (fun p => p.1 = k2) := by
  induction m with
  | nil => rfl
  | cons p rest ih =>
    by_cases hp : p.1 = k
    · simp [List.find?_cons, hp, Ne.symm h, ih]
    · by_cases hp2 : p.1 = k2
      · rw [List.map_cons, if_neg hp, List.find?_cons, List.find?_cons]
        simp [hp2]
      · rw [List.map_cons, if_neg hp, List.find?_cons, List.find?_cons]
        simp [hp2, ih]

theorem getKey_setKey_self (m : Meta) (k : String) (v : MVal) :
    getKey (setKey m k v) k = some v := by
  induction m with
  | nil => simp [getKey, setKey, List.find?_cons]
  | cons p rest ih =>
    by_cases hp : p.1 = k
    · have hany : (p :: rest).any (fun q => decide (q.1 = k)) = true := by
        simp [hp]
      simp [setKey, hany, getKey, List.find?_cons, hp]
    · rw [setKey_cons_ne p rest k v hp]
      simpa [getKey, List.find?_cons, hp] using ih

theorem getKey_setKey_ne (m : Meta) (k k2 : String) (v : MVal) (h : k2 ≠ k) :
    getKey (setKey m k v) k2 = getKey m k2 := by
  induction m with
  | nil => simp [getKey, setKey, List.find?_cons, Ne.symm h]
  | cons p rest ih =>
    by_cases hp : p.1 = k
    · have hany : (p :: rest).any (fun q => decide (q.1 = k)) = true := by
        simp [hp]
      simp only [setKey, hany, if_true, getKey] at ih ⊢
      rw [List.map_cons]
      by_cases hp2 : p.1 = k2
      · exact absurd (hp2.symm.trans hp) h
      · simp [List.find?_cons, hp, hp2, Ne.symm h, find?_mapOverwrite rest k k2 v h]
    · rw [setKey_cons_ne p rest k v hp]
      by_cases hp2 : p.1 = k2
      · simp [getKey, List.find?_cons, hp2]
      · simpa [getKey, List.find?_cons, hp2] using ih

theorem getD_set_ne (s : Store) (r : Nat) (v : Entry) (a : Nat) (h : r ≠ a) :
    (s.set r v).getD a ⟨[], []⟩ = s.getD a ⟨[], []⟩ := by
  rw [List.getD_eq_getD_get?, List.getD_eq_getD_get?, List.get?_eq_getElem?,
    List.get?_eq_getElem?, List.getElem?_set_ne h]

theorem getD_set_self (s : Store) (r : Nat) (v : Entry) (h : r < s.length) :
    (s.set r v).getD r ⟨[], []⟩ = v := by
  rw [List.getD_eq_getD_get?, List.get?_eq_getElem?,
    List.getElem?_set_eq_of_lt _ h]
  rfl

theorem mutateAll_getD_not_mem (f : Entry → Entry) (refs : List Nat) :
    ∀ (s : Store) (a : Nat), a ∉ refs →
      (mutateAll f s refs).getD a ⟨[], []⟩ = s.getD a ⟨[], []⟩ := by
  induction refs with
  | nil =>
    intro s a _
    rfl
  | cons r rest ih =>
    intro s a ha
    have har : r ≠ a := fun h => ha (h ▸ List.mem_cons_self r rest)
    have hrest : a ∉ rest := fun h => ha (List.mem_cons_of_mem r h)
    rw [show mutateAll f s (r :: rest) = mutateAll f (mutateAt s r f) rest from rfl,
      ih (mutateAt s r f) a hrest]
    unfold mutateAt
    exact getD_set_ne s r _ a har

theorem mutateAll_length (f : Entry → Entry) (refs : List Nat) :
    ∀ s : Store, (mutateAll f s refs).length = s.length := by
  induction refs with
  | nil =>
    intro s
    rfl
  | cons r rest ih =>
    intro s
    rw [show mutateAll f s (r :: rest) = mutateAll f (mutateAt s r f) rest from rfl,
      ih (mutateAt s r f)]
    unfold mutateAt
    exact List.length_set s r _

theorem mutateAll_getD_mem (f : Entry → Entry) (refs : List Nat) :
    ∀ (s : Store) (r : Nat), refs.Nodup → r ∈ refs → r < s.length →
      (mutateAll f s refs).getD r ⟨[], []⟩ = f (s.getD r ⟨[], []⟩) := by
  induction refs with
  | nil =>
    intro s r _ hr _
    cases hr
  | cons b rest ih =>
    intro s r hnd hr hlt
    rcases List.mem_cons.mp hr with heq | hmemr
    · subst heq
      have hnotin : r ∉ rest := (List.nodup_cons.mp hnd).1
      rw [show mutateAll f s (r :: rest) = mutateAll f (mutateAt s r f) rest from rfl,
        mutateAll_getD_not_mem f rest (mutateAt s r f) r hnotin]
      unfold mutateAt
      exact getD_set_self s r _ hlt
    · have hne : b ≠ r := fun h => (List.nodup_cons.mp hnd).1 (h ▸ hmemr)
      have hlen : r < (mutateAt s b f).length := by
        unfold mutateAt
        rw [List.length_set]
        exact hlt
      rw [show mutateAll f s (b :: rest) = mutateAll f (mutateAt s b f) rest from rfl,
        ih (mutateAt s b f) r (List.nodup_cons.mp hnd).2 hmemr hlen]
      unfold mutateAt
      rw [getD_set_ne s b _ r hne]

/-- Claim C5: `ConditioningSetArea.append` returns a deep copy in which every
entry's metadata gains/overwrites the `area` tuple (the pixel coordinates
integer-divided by 8), the strength, and the sigma-gate fields, while every
pre-existing store cell — in particular every entry of the input list — is
left unmodified. -/
theorem claim_C5 (s : Store) (cond : List Nat)
    (width height x y : Nat) (strength min_sigma max_sigma : ℚ)
    (hv : ∀ a ∈ cond, a < s.length) :
    (∀ a, a < s.length →
      (conditioningSetArea s cond width height x y strength min_sigma
        max_sigma).1.getD a ⟨[], []⟩ = s.getD a ⟨[], []⟩) ∧
    (conditioningSetArea s cond width height x y strength min_sigma max_sigma).2 =
      (List.range cond.length).map (fun i => s.length + i) ∧
    (∀ i, i < cond.length →
      ((conditioningSetArea s cond width height x y strength min_sigma
          max_sigma).1.getD (s.length + i) ⟨[], []⟩).emb =
        (s.getD (cond.getD i 0) ⟨[], []⟩).emb ∧
      getKey ((conditioningSetArea s cond width height x y strength min_sigma
          max_sigma).1.getD (s.length + i) ⟨[], []⟩).meta "area" =
        some (MVal.area (height / 8, width / 8, y / 8, x / 8)) ∧
      getKey ((conditioningSetArea s cond width height x y strength min_sigma
          max_sigma).1.getD (s.length + i) ⟨[], []⟩).meta "strength" =
        some (MVal.num strength) ∧
      getKey ((conditioningSetArea s cond width height x y strength min_sigma
          max_sigma).1.getD (s.length + i) ⟨[], []⟩).meta "min_sigma" =
        some (MVal.num min_sigma) ∧
      getKey ((conditioningSetArea s cond width height x y strength min_sigma
          max_sigma).1.getD (s.length + i) ⟨[], []⟩).meta "max_sigma" =
        some (MVal.num max_sigma)) := by
  have hres1 : (conditioningSetArea s cond width height x y strength min_sigma
      max_sigma).1 =
      mutateAll (setAreaEntry width height x y strength min_sigma max_sigma)
        (s ++ cond.map (fun a => s.getD a ⟨[], []⟩))
        ((List.range cond.length).map (fun i => s.length + i)) := rfl
  have hres2 : (conditioningSetArea s cond width height x y strength min_sigma
      max_sigma).2 = (List.range cond.length).map (fun i => s.length + i) := rfl
  have hnd : ((List.range cond.length).map (fun i => s.length + i)).Nodup :=
    List.Nodup.map (fun i j hij => Nat.add_left_cancel hij) (List.nodup_range _)
  refine ⟨?_, hres2, ?_⟩
  · intro a ha
    have hnot : a ∉ (List.range cond.length).map (fun i => s.length + i) := by
      intro hmem
      rcases List.mem_map.mp hmem with ⟨i, _, hie⟩
      omega
    rw [hres1, mutateAll_getD_not_mem _ _ _ a hnot,
      List.getD_append _ _ _ _ ha]
  · intro i hi
    have hmemref : s.length + i ∈
        (List.range cond.length).map (fun i => s.length + i) :=
      List.mem_map_of_mem _ (List.mem_range.mpr hi)
    have hltref : s.length + i <
        (s ++ cond.map (fun a => s.getD a ⟨[], []⟩)).length := by
      rw [List.length_append, List.length_map]
      omega
    have hstep : (conditioningSetArea s cond width height x y strength min_sigma
        max_sigma).1.getD (s.length + i) ⟨[], []⟩ =
        setAreaEntry width height x y strength min_sigma max_sigma
          ((s ++ cond.map (fun a => s.getD a ⟨[], []⟩)).getD (s.length + i)
            ⟨[], []⟩) := by
      rw [hres1]
      exact mutateAll_getD_mem _ _ _ _ hnd hmemref hltref
    have hcopy : (s ++ cond.map (fun a => s.getD a ⟨[], []⟩)).getD (s.length + i)
        ⟨[], []⟩ = s.getD (cond.getD i 0) ⟨[], []⟩ := by
      rw [List.getD_append_right _ _ _ _ (Nat.le_add_right _ _),
        Nat.add_sub_cancel_left]
      have hi2 : i < (cond.map (fun a => s.getD a ⟨[], []⟩)).length := by
        rw [List.length_map]
        exact hi
      rw [List.getD_eq_getElem _ _ hi2, List.getElem_map,
        List.getD_eq_getElem _ _ hi]
    rw [hstep, hcopy]
    refine ⟨rfl, ?_, ?_, ?_, ?_⟩
    · unfold setAreaEntry
      rw [getKey_setKey_ne _ _ _ _ (by decide), getKey_setKey_ne _ _ _ _ (by decide),
        getKey_setKey_ne _ _ _ _ (by decide), getKey_setKey_self]
    · unfold setAreaEntry
      rw [getKey_setKey_ne _ _ _ _ (by decide), getKey_setKey_ne _ _ _ _ (by decide),
        getKey_setKey_self]
    · unfold setAreaEntry
      rw [getKey_setKey_ne _ _ _ _ (by decide), getKey_setKey_self]
    · unfold setAreaEntry
      rw [getKey_setKey_self]

/-- Claim C5 (witness): a one-entry store with one reference. -/
theorem claim_C5_witness :
    (conditioningSetArea [⟨[11], [("strength", MVal.num 2)]⟩] [0]
        128 64 0 0 1 0 99).1.getD 0 ⟨[], []⟩ =
      ⟨[11], [("strength", MVal.num 2)]⟩ ∧
    getKey ((conditioningSetArea [⟨[11], [("strength", MVal.num 2)]⟩] [0]
        128 64 0 0 1 0 99).1.getD 1 ⟨[], []⟩).meta "area" =
      some (MVal.area (8, 16, 0, 0)) ∧
    getKey ((conditioningSetArea [⟨[11], [("strength", MVal.num 2)]⟩] [0]
        128 64 0 0 1 0 99).1.getD 1 ⟨[], []⟩).meta "strength" =
      some (MVal.num 1) := by
  have h := claim_C5 [⟨[11], [("strength", MVal.num 2)]⟩] [0] 128 64 0 0 1 0 99
    (by decide)
  refine ⟨h.1 0 (by decide), ?_, ?_⟩
  · have h2 := (h.2.2 0 (by decide)).2.1
    simpa using h2
  · have h3 := (h.2.2 0 (by decide)).2.2.1
    simpa using h3

end ComfyNodes
